import Mathlib

/-!
Verification of the resilient structured-response extraction routine
`robustJsonParse` of the tuRNextAI repository.

Strings are modelled as `List Char`.  The JavaScript string primitives the
source relies on (`String.prototype.indexOf`, `lastIndexOf`, `substring`)
are embedded with their ECMAScript semantics, including the `-1` sentinel
for "not found" and the argument clamping and swapping of `substring`.
`JSON.parse` is embedded as a fuel-indexed recursive-descent parser for the
JSON grammar (ECMA-404), returning `none` on any syntax error.
-/

set_option autoImplicit false

namespace RobustJson

/-- The character `{` (code 123), written via `Char.ofNat`. -/
def lbrace : Char := Char.ofNat 123

/-- The character `}` (code 125). -/
def rbrace : Char := Char.ofNat 125

/-- The character `[` (code 91). -/
def lbrack : Char := Char.ofNat 91

/-- The character `]` (code 93). -/
def rbrack : Char := Char.ofNat 93

/-- JavaScript `String.prototype.indexOf` for a single character:
the index of the first occurrence of `c` in `s`, or `-1` when absent. -/
def firstIdx (s : List Char) (c : Char) : Int :=
  match s with
  | [] => -1
  | x :: xs =>
    if x = c then 0
    else if firstIdx xs c = -1 then -1 else firstIdx xs c + 1

/-- JavaScript `String.prototype.lastIndexOf` for a single character:
the index of the last occurrence of `c` in `s`, or `-1` when absent. -/
def lastIdx (s : List Char) (c : Char) : Int :=
  match s with
  | [] => -1
  | x :: xs =>
    if lastIdx xs c = -1 then (if x = c then 0 else -1) else lastIdx xs c + 1

/-- JavaScript `String.prototype.substring s a b`: clamps both arguments
to `[0, length]`, swaps them when the first exceeds the second, and returns
the characters in the half-open range `[lo, hi)`. -/
def jsSubstring (s : List Char) (a b : Int) : List Char :=
  let len : Int := (s.length : Int)
  let a2 : Nat := (min (max a 0) len).toNat
  let b2 : Nat := (min (max b 0) len).toNat
  let lo : Nat := min a2 b2
  let hi : Nat := max a2 b2
  (s.take hi).drop lo

/-- JSON values as produced by `JSON.parse`.  Numbers keep their source
lexeme (the embedding does not commit to a floating-point reading), strings
are kept as decoded character lists, and objects are ordered field lists. -/
inductive Json where
  | null : Json
  | bool (b : Bool) : Json
  | num (lexeme : List Char) : Json
  | str (chars : List Char) : Json
  | arr (items : List Json) : Json
  | obj (fields : List (List Char × Json)) : Json

/-- JSON whitespace: space, tab, line feed, carriage return. -/
def isJsonWs (c : Char) : Bool :=
  c = ' ' || c = Char.ofNat 9 || c = Char.ofNat 10 || c = Char.ofNat 13

/-- Drop leading JSON whitespace. -/
def skipWs : List Char → List Char
  | [] => []
  | c :: cs => if isJsonWs c then skipWs cs else c :: cs

/-- ASCII decimal digit test. -/
def isDigit (c : Char) : Bool :=
  48 ≤ c.toNat && c.toNat ≤ 57

/-- Value of a hexadecimal digit, or `none`. -/
def hexVal (c : Char) : Option Nat :=
  let n := c.toNat
  if 48 ≤ n && n ≤ 57 then some (n - 48)
  else if 65 ≤ n && n ≤ 70 then some (n - 55)
  else if 97 ≤ n && n ≤ 102 then some (n - 87)
  else none

/-- Decoding of a single-character JSON string escape. -/
def escChar (c : Char) : Option Char :=
  if c = '\"' then some '\"'
  else if c = '\\' then some '\\'
  else if c = '/' then some '/'
  else if c = 'b' then some (Char.ofNat 8)
  else if c = 'f' then some (Char.ofNat 12)
  else if c = 'n' then some (Char.ofNat 10)
  else if c = 'r' then some (Char.ofNat 13)
  else if c = 't' then some (Char.ofNat 9)
  else none

/-- Body of a JSON string literal, after the opening quote: returns the
decoded characters and the remainder after the closing quote.  Control
characters below U+0020 are rejected, as in `JSON.parse`. -/
def parseStringBody : Nat → List Char → Option (List Char × List Char)
  | 0, _ => none
  | _ + 1, [] => none
  | f + 1, c :: cs =>
    if c = '\"' then some ([], cs)
    else if c = '\\' then
      match cs with
      | [] => none
      | e :: cs2 =>
        if e = 'u' then
          match cs2 with
          | h1 :: h2 :: h3 :: h4 :: cs3 =>
            match hexVal h1, hexVal h2, hexVal h3, hexVal h4 with
            | some v1, some v2, some v3, some v4 =>
              match parseStringBody f cs3 with
              | some (out, rest) =>
                some (Char.ofNat (((v1 * 16 + v2) * 16 + v3) * 16 + v4) :: out, rest)
              | none => none
            | _, _, _, _ => none
          | _ => none
        else
          match escChar e with
          | some d =>
            match parseStringBody f cs2 with
            | some (out, rest) => some (d :: out, rest)
            | none => none
          | none => none
    else if c.toNat < 32 then none
    else
      match parseStringBody f cs with
      | some (out, rest) => some (c :: out, rest)
      | none => none

/-- Longest prefix of decimal digits, with the remainder. -/
def spanDigits : List Char → List Char × List Char
  | [] => ([], [])
  | c :: cs =>
    if isDigit c then
      let p := spanDigits cs
      (c :: p.1, p.2)
    else ([], c :: cs)

/-- Optional fraction part of a JSON number (`.` followed by one or more
digits); returns its lexeme (possibly empty) and the remainder. -/
def parseFracPart (s : List Char) : Option (List Char × List Char) :=
  match s with
  | [] => some ([], [])
  | c :: cs =>
    if c = '.' then
      match spanDigits cs with
      | ([], _) => none
      | (d, r) => some ('.' :: d, r)
    else some ([], c :: cs)

/-- Optional exponent part of a JSON number (`e`/`E`, optional sign, one or
more digits); returns its lexeme (possibly empty) and the remainder. -/
def parseExpPart (s : List Char) : Option (List Char × List Char) :=
  match s with
  | [] => some ([], [])
  | c :: cs =>
    if c = 'e' || c = 'E' then
      let signAndRest :=
        match cs with
        | d :: ds => if d = '+' || d = '-' then ([d], ds) else (([] : List Char), cs)
        | [] => (([] : List Char), ([] : List Char))
      match spanDigits signAndRest.2 with
      | ([], _) => none
      | (d, r) => some (c :: (signAndRest.1 ++ d), r)
    else some ([], c :: cs)

/-- A JSON number token: `-? (0 | [1-9][0-9]*) frac? exp?`.  Returns the
full lexeme and the remainder, or `none` when the head is not a number. -/
def parseNumberLex (s : List Char) : Option (List Char × List Char) :=
  let negAndRest :=
    match s with
    | c :: cs => if c = '-' then ([c], cs) else (([] : List Char), s)
    | [] => (([] : List Char), ([] : List Char))
  match negAndRest.2 with
  | [] => none
  | c :: cs =>
    if c = '0' then
      match parseFracPart cs with
      | some (fr, r1) =>
        match parseExpPart r1 with
        | some (ex, r2) => some (negAndRest.1 ++ [c] ++ fr ++ ex, r2)
        | none => none
      | none => none
    else if isDigit c then
      let p := spanDigits cs
      match parseFracPart p.2 with
      | some (fr, r1) =>
        match parseExpPart r1 with
        | some (ex, r2) => some (negAndRest.1 ++ (c :: p.1) ++ fr ++ ex, r2)
        | none => none
      | none => none
    else none

mutual

/-- Recursive-descent parse of one JSON value, fuel-indexed.  Skips leading
whitespace, then dispatches on the first character. -/
def parseValue : Nat → List Char → Option (Json × List Char)
  | 0, _ => none
  | f + 1, s =>
    match skipWs s with
    | [] => none
    | c :: cs =>
      if c = lbrace then
        match parseObjectItems f cs with
        | some (fs, rest) => some (.obj fs, rest)
        | none => none
      else if c = lbrack then
        match parseArrayItems f cs with
        | some (vs, rest) => some (.arr vs, rest)
        | none => none
      else if c = '\"' then
        match parseStringBody (cs.length + 1) cs with
        | some (chars, rest) => some (.str chars, rest)
        | none => none
      else if c = 't' then
        match cs with
        | 'r' :: 'u' :: 'e' :: rest => some (.bool true, rest)
        | _ => none
      else if c = 'f' then
        match cs with
        | 'a' :: 'l' :: 's' :: 'e' :: rest => some (.bool false, rest)
        | _ => none
      else if c = 'n' then
        match cs with
        | 'u' :: 'l' :: 'l' :: rest => some (.null, rest)
        | _ => none
      else
        match parseNumberLex (c :: cs) with
        | some (lex, rest) => some (.num lex, rest)
        | none => none

/-- Items of a JSON array, after the opening `[`. -/
def parseArrayItems : Nat → List Char → Option (List Json × List Char)
  | 0, _ => none
  | f + 1, s =>
    match skipWs s with
    | [] => none
    | c :: cs =>
      if c = rbrack then some ([], cs)
      else
        match parseValue f (c :: cs) with
        | some (v, rest) =>
          match parseArrayMore f rest with
          | some (vs, rest2) => some (v :: vs, rest2)
          | none => none
        | none => none

/-- Continuation of a JSON array: `(',' value)*` then `]`. -/
def parseArrayMore : Nat → List Char → Option (List Json × List Char)
  | 0, _ => none
  | f + 1, s =>
    match skipWs s with
    | [] => none
    | c :: cs =>
      if c = rbrack then some ([], cs)
      else if c = ',' then
        match parseValue f cs with
        | some (v, rest) =>
          match parseArrayMore f rest with
          | some (vs, rest2) => some (v :: vs, rest2)
          | none => none
        | none => none
      else none

/-- One `"key" : value` member of a JSON object. -/
def parseMember : Nat → List Char → Option ((List Char × Json) × List Char)
  | 0, _ => none
  | f + 1, s =>
    match skipWs s with
    | [] => none
    | c :: cs =>
      if c = '\"' then
        match parseStringBody (cs.length + 1) cs with
        | some (key, rest) =>
          match skipWs rest with
          | [] => none
          | c2 :: cs2 =>
            if c2 = ':' then
              match parseValue f cs2 with
              | some (v, rest2) => some ((key, v), rest2)
              | none => none
            else none
        | none => none
      else none

/-- Members of a JSON object, after the opening brace. -/
def parseObjectItems : Nat → List Char → Option (List (List Char × Json) × List Char)
  | 0, _ => none
  | f + 1, s =>
    match skipWs s with
    | [] => none
    | c :: cs =>
      if c = rbrace then some ([], cs)
      else
        match parseMember f (c :: cs) with
        | some (kv, rest) =>
          match parseObjectMore f rest with
          | some (kvs, rest2) => some (kv :: kvs, rest2)
          | none => none
        | none => none

/-- Continuation of a JSON object: `(',' member)*` then the closing brace. -/
def parseObjectMore : Nat → List Char → Option (List (List Char × Json) × List Char)
  | 0, _ => none
  | f + 1, s =>
    match skipWs s with
    | [] => none
    | c :: cs =>
      if c = rbrace then some ([], cs)
      else if c = ',' then
        match parseMember f cs with
        | some (kv, rest) =>
          match parseObjectMore f rest with
          | some (kvs, rest2) => some (kv :: kvs, rest2)
          | none => none
        | none => none
      else none

end

/-- `JSON.parse`: one JSON value, surrounded only by whitespace; `none` on
any syntax error. -/
def jsonParse (s : List Char) : Option Json :=
  match parseValue ((s.length + 1) * 3) s with
  | some (v, rest) => if skipWs rest = [] then some v else none
  | none => none

/-- The two failure kinds robustJsonParse can raise, each carrying the
message string of the thrown `Error`. -/
inductive JsError where
  | extractionError (msg : List Char) : JsError
  | decodeError (msg : List Char) : JsError
deriving DecidableEq

/-- Message of the first throw: no opening delimiter anywhere. -/
def noStartMsg : List Char := "No JSON object or array found in the response.".toList

/-- Message of the second throw: no closing delimiter anywhere. -/
def noEndMsg : List Char := "Could not find a valid end for the JSON content.".toList

/-- Message of the throw in the catch block around `JSON.parse`. -/
def decodeFailMsg : List Char :=
  "The AI returned a response that could not be parsed as JSON.".toList

/-- `jsonString.indexOf (lbrace)` of the source. -/
def firstBraceOf (s : List Char) : Int := firstIdx s lbrace

/-- `jsonString.indexOf (lbrack)` of the source. -/
def firstBracketOf (s : List Char) : Int := firstIdx s lbrack

/-- The `startIndex` computed by the source: the first `{` when `[` is
absent, the first `[` when `{` is absent, else the smaller of the two. -/
def startIndexOf (s : List Char) : Int :=
  if firstBraceOf s = -1 then firstBracketOf s
  else if firstBracketOf s = -1 then firstBraceOf s
  else min (firstBraceOf s) (firstBracketOf s)

/-- The `endIndex` computed by the source: `max (lastIndexOf rbrace)
(lastIndexOf rbrack)`, with `-1` standing for "absent". -/
def endIndexOf (s : List Char) : Int :=
  max (lastIdx s rbrace) (lastIdx s rbrack)

/-- The `jsonSubString` handed to `JSON.parse`:
`jsonString.substring startIndex (endIndex + 1)`. -/
def extractedOf (s : List Char) : List Char :=
  jsSubstring s (startIndexOf s) (endIndexOf s + 1)

/-- The whole of `robustJsonParse`, mirroring the source control flow:
throw when neither `{` nor `[` occurs; throw when neither `}` nor `]`
occurs; otherwise `JSON.parse` the extracted substring, converting a parse
failure into the fixed-message decode error. -/
def robustJsonParse (jsonString : List Char) : Except JsError Json :=
  if firstBraceOf jsonString = -1 ∧ firstBracketOf jsonString = -1 then
    .error (.extractionError noStartMsg)
  else if endIndexOf jsonString = -1 then
    .error (.extractionError noEndMsg)
  else
    match jsonParse (extractedOf jsonString) with
    | some v => .ok v
    | none => .error (.decodeError decodeFailMsg)

/-- Whether a result is a failure of the `ExtractionError` kind. -/
def isExtractionError : Except JsError Json → Bool
  | .error (.extractionError _) => true
  | _ => false

/-- Whether a result is a failure of the `DecodeError` kind. -/
def isDecodeError : Except JsError Json → Bool
  | .error (.decodeError _) => true
  | _ => false

/-- A character that is none of the four JSON delimiters; prose in the
sense of the specification consists only of such characters. -/
def isNonDelim (c : Char) : Prop :=
  c ≠ lbrace ∧ c ≠ lbrack ∧ c ≠ rbrace ∧ c ≠ rbrack

instance (c : Char) : Decidable (isNonDelim c) := by
  unfold isNonDelim
  infer_instance

/-! ### Facts about the index primitives -/

theorem firstIdx_ge (s : List Char) (c : Char) : -1 ≤ firstIdx s c := by
  induction s with
  | nil => simp [firstIdx]
  | cons x xs ih =>
    simp only [firstIdx]
    split
    · omega
    · split <;> omega

theorem firstIdx_eq_neg_iff (s : List Char) (c : Char) :
    firstIdx s c = -1 ↔ c ∉ s := by
  induction s with
  | nil => simp [firstIdx]
  | cons x xs ih =>
    have hge := firstIdx_ge xs c
    by_cases hx : x = c
    · subst hx
      simp [firstIdx]
    · by_cases hr : firstIdx xs c = -1
      · have hm : c ∉ xs := ih.mp hr
        have hcx : ¬ c = x := fun hh => hx hh.symm
        simp [firstIdx, hx, hr, hm, hcx]
      · have hm : c ∈ xs := by
          by_contra hmm
          exact hr (ih.mpr hmm)
        have hne : ¬ (firstIdx xs c + 1 = -1) := by omega
        simp [firstIdx, hx, hr, hm, hne]

theorem firstIdx_cons_self (s : List Char) (c : Char) : firstIdx (c :: s) c = 0 := by
  simp [firstIdx]

theorem firstIdx_append (a b : List Char) (c : Char) (h : c ∉ a) :
    firstIdx (a ++ b) c =
      if firstIdx b c = -1 then -1 else (a.length : Int) + firstIdx b c := by
  induction a with
  | nil =>
    by_cases hb : firstIdx b c = -1
    · simp [hb]
    · simp [hb]
  | cons x xs ih =>
    have hx : ¬ x = c := fun hh => h (by simp [hh])
    have hxs : c ∉ xs := fun hh => h (by simp [hh])
    have ih' := ih hxs
    have hgeb := firstIdx_ge b c
    by_cases hb : firstIdx b c = -1
    · have h0 : firstIdx (xs ++ b) c = -1 := by rw [ih', if_pos hb]
      simp only [List.cons_append, firstIdx, List.append_eq]
      rw [if_neg hx, if_pos h0, if_pos hb]
    · have h1 : firstIdx (xs ++ b) c = (xs.length : Int) + firstIdx b c := by
        rw [ih', if_neg hb]
      have h2 : ¬ firstIdx (xs ++ b) c = -1 := by rw [h1]; omega
      simp only [List.cons_append, firstIdx, List.length_cons, List.append_eq]
      rw [if_neg hx, if_neg h2, if_neg hb, h1]
      push_cast
      ring

theorem lastIdx_ge (s : List Char) (c : Char) : -1 ≤ lastIdx s c := by
  induction s with
  | nil => simp [lastIdx]
  | cons x xs ih =>
    simp only [lastIdx]
    split
    · split <;> omega
    · omega

theorem lastIdx_eq_neg_iff (s : List Char) (c : Char) :
    lastIdx s c = -1 ↔ c ∉ s := by
  induction s with
  | nil => simp [lastIdx]
  | cons x xs ih =>
    simp only [lastIdx, List.mem_cons]
    by_cases hr : lastIdx xs c = -1
    · have hxs : c ∉ xs := (ih).mp hr
      by_cases hx : x = c
      · simp [hr, hx]
      · have hx' : ¬ c = x := fun hh => hx hh.symm
        simp [hr, hx, hx', hxs]
    · have hxs : c ∈ xs := by
        by_contra hmem
        exact hr (ih.mpr hmem)
      have := lastIdx_ge xs c
      simp only [hr, if_false]
      constructor
      · intro h; omega
      · intro h; exact absurd (Or.inr hxs) h

theorem lastIdx_lt_length (s : List Char) (c : Char) :
    lastIdx s c < (s.length : Int) := by
  induction s with
  | nil => simp [lastIdx]
  | cons x xs ih =>
    simp only [lastIdx, List.length_cons]
    split
    · split <;> (push_cast; omega)
    · push_cast; omega

theorem lastIdx_append_not_mem (a b : List Char) (c : Char) (h : c ∉ b) :
    lastIdx (a ++ b) c = lastIdx a c := by
  induction a with
  | nil =>
    simp only [List.nil_append]
    exact (lastIdx_eq_neg_iff b c).mpr h
  | cons x xs ih =>
    simp only [List.cons_append, lastIdx, List.append_eq, ih]

theorem lastIdx_concat_self (a : List Char) (c : Char) :
    lastIdx (a ++ [c]) c = (a.length : Int) := by
  induction a with
  | nil => simp [lastIdx]
  | cons x xs ih =>
    have hne : ¬ ((xs.length : Int) = -1) := by
      have : (0 : Int) ≤ (xs.length : Int) := Int.natCast_nonneg _
      omega
    simp only [List.cons_append, lastIdx, List.append_eq, ih, List.length_cons]
    rw [if_neg hne]
    push_cast
    ring

theorem firstIdx_get (s : List Char) (c : Char) (k : Nat)
    (h : firstIdx s c = (k : Int)) : s[k]? = some c := by
  induction s generalizing k with
  | nil =>
    exfalso
    simp only [firstIdx] at h
    omega
  | cons x xs ih =>
    simp only [firstIdx] at h
    by_cases hx : x = c
    · rw [if_pos hx] at h
      have hk : k = 0 := by omega
      subst hk
      simp [hx]
    · rw [if_neg hx] at h
      by_cases hr : firstIdx xs c = -1
      · rw [if_pos hr] at h
        exfalso
        omega
      · rw [if_neg hr] at h
        have hge : -1 ≤ firstIdx xs c := firstIdx_ge xs c
        have hk : 1 ≤ k := by omega
        have h' : firstIdx xs c = ((k - 1 : Nat) : Int) := by omega
        have hgot := ih (k - 1) h'
        have hk' : k = (k - 1) + 1 := by omega
        rw [hk']
        simpa using hgot

theorem lastIdx_get (s : List Char) (c : Char) (k : Nat)
    (h : lastIdx s c = (k : Int)) : s[k]? = some c := by
  induction s generalizing k with
  | nil =>
    exfalso
    simp only [lastIdx] at h
    omega
  | cons x xs ih =>
    simp only [lastIdx] at h
    by_cases hr : lastIdx xs c = -1
    · rw [if_pos hr] at h
      by_cases hx : x = c
      · rw [if_pos hx] at h
        have hk : k = 0 := by omega
        subst hk
        simp [hx]
      · rw [if_neg hx] at h
        exfalso
        omega
    · rw [if_neg hr] at h
      have hge : -1 ≤ lastIdx xs c := lastIdx_ge xs c
      have hk : 1 ≤ k := by omega
      have h' : lastIdx xs c = ((k - 1 : Nat) : Int) := by omega
      have hgot := ih (k - 1) h'
      have hk' : k = (k - 1) + 1 := by omega
      rw [hk']
      simpa using hgot

/-! ### The control flow of robustJsonParse -/

theorem guard_open (s : List Char) :
    (firstBraceOf s = -1 ∧ firstBracketOf s = -1) ↔ (lbrace ∉ s ∧ lbrack ∉ s) := by
  unfold firstBraceOf firstBracketOf
  rw [firstIdx_eq_neg_iff, firstIdx_eq_neg_iff]

theorem guard_close (s : List Char) :
    endIndexOf s = -1 ↔ (rbrace ∉ s ∧ rbrack ∉ s) := by
  unfold endIndexOf
  have g1 := lastIdx_ge s rbrace
  have g2 := lastIdx_ge s rbrack
  have h1 := le_max_left (lastIdx s rbrace) (lastIdx s rbrack)
  have h2 := le_max_right (lastIdx s rbrace) (lastIdx s rbrack)
  rw [← lastIdx_eq_neg_iff s rbrace, ← lastIdx_eq_neg_iff s rbrack]
  constructor
  · intro h
    constructor <;> omega
  · intro h
    rw [h.1, h.2]
    simp

theorem robustJsonParse_decode_branch (s : List Char)
    (hop : lbrace ∈ s ∨ lbrack ∈ s) (hcl : rbrace ∈ s ∨ rbrack ∈ s) :
    robustJsonParse s =
      (match jsonParse (extractedOf s) with
       | some v => .ok v
       | none => .error (.decodeError decodeFailMsg)) := by
  unfold robustJsonParse
  have h1 : ¬ (firstBraceOf s = -1 ∧ firstBracketOf s = -1) := by
    rw [guard_open]
    tauto
  have h2 : ¬ endIndexOf s = -1 := by
    rw [guard_close]
    tauto
  rw [if_neg h1, if_neg h2]

theorem robustJsonParse_extraction_guard_iff (s : List Char) :
    isExtractionError (robustJsonParse s) = true ↔
      ((lbrace ∉ s ∧ lbrack ∉ s) ∨ (rbrace ∉ s ∧ rbrack ∉ s)) := by
  by_cases hop : lbrace ∉ s ∧ lbrack ∉ s
  · have h1 : firstBraceOf s = -1 ∧ firstBracketOf s = -1 := (guard_open s).mpr hop
    unfold robustJsonParse
    rw [if_pos h1]
    simp [isExtractionError, hop]
  · by_cases hcl : rbrace ∉ s ∧ rbrack ∉ s
    · have h2 : endIndexOf s = -1 := (guard_close s).mpr hcl
      have h1 : ¬ (firstBraceOf s = -1 ∧ firstBracketOf s = -1) := by
        rw [guard_open]
        exact hop
      unfold robustJsonParse
      rw [if_neg h1, if_pos h2]
      simp [isExtractionError, hcl]
    · have hop' : lbrace ∈ s ∨ lbrack ∈ s := by tauto
      have hcl' : rbrace ∈ s ∨ rbrack ∈ s := by tauto
      rw [robustJsonParse_decode_branch s hop' hcl']
      rcases hjp : jsonParse (extractedOf s) with _ | v
      · simp [hjp, isExtractionError, hop, hcl]
      · simp [hjp, isExtractionError, hop, hcl]

/-! ### The extracted substring -/

theorem jsSubstring_of_bounds (s : List Char) (a b : Nat)
    (hab : a ≤ b) (hb : b ≤ s.length) :
    jsSubstring s (a : Int) (b : Int) = (s.take b).drop a := by
  unfold jsSubstring
  have h1 : max ((a : Int)) 0 = (a : Int) := max_eq_left (Int.natCast_nonneg _)
  have h2 : max ((b : Int)) 0 = (b : Int) := max_eq_left (Int.natCast_nonneg _)
  have h3 : min ((a : Int)) ((s.length : Int)) = (a : Int) :=
    min_eq_left (by exact_mod_cast le_trans hab hb)
  have h4 : min ((b : Int)) ((s.length : Int)) = (b : Int) :=
    min_eq_left (by exact_mod_cast hb)
  simp only [h1, h2, h3, h4, Int.toNat_natCast]
  rw [min_eq_left hab, max_eq_right hab]

theorem firstIdx_concat_first (p rest q : List Char) (c : Char) (hp : c ∉ p) :
    firstIdx (p ++ ((c :: rest) ++ q)) c = (p.length : Int) := by
  have h0 : firstIdx ((c :: rest) ++ q) c = 0 := by
    rw [List.cons_append, firstIdx_cons_self]
  rw [firstIdx_append p _ c hp, h0]
  norm_num

theorem firstIdx_concat_ge (p rest2 : List Char) (c : Char) (hp : c ∉ p) :
    firstIdx (p ++ rest2) c = -1 ∨ (p.length : Int) ≤ firstIdx (p ++ rest2) c := by
  rw [firstIdx_append p rest2 c hp]
  by_cases hb : firstIdx rest2 c = -1
  · left
    rw [if_pos hb]
  · right
    rw [if_neg hb]
    have := firstIdx_ge rest2 c
    omega

theorem startIndexOf_concat (p frag q : List Char) (o : Char)
    (ho : o = lbrace ∨ o = lbrack)
    (hfrag : frag.head? = some o)
    (hp1 : lbrace ∉ p) (hp2 : lbrack ∉ p) :
    startIndexOf (p ++ frag ++ q) = (p.length : Int) := by
  rcases frag with _ | ⟨x, rest⟩
  · simp at hfrag
  · have hx : x = o := by simpa using hfrag
    subst hx
    rw [List.append_assoc]
    have hlen0 : (0 : Int) ≤ (p.length : Int) := Int.natCast_nonneg _
    unfold startIndexOf firstBraceOf firstBracketOf
    rcases ho with rfl | rfl
    · have hbr : firstIdx (p ++ ((lbrace :: rest) ++ q)) lbrace = (p.length : Int) :=
        firstIdx_concat_first p rest q lbrace hp1
      have hbrne : ¬ firstIdx (p ++ ((lbrace :: rest) ++ q)) lbrace = -1 := by
        rw [hbr]
        omega
      rw [if_neg hbrne]
      rcases firstIdx_concat_ge p ((lbrace :: rest) ++ q) lbrack hp2 with hbk | hbk
      · rw [if_pos hbk]
        exact hbr
      · have hbkne : ¬ firstIdx (p ++ ((lbrace :: rest) ++ q)) lbrack = -1 := by omega
        rw [if_neg hbkne, hbr]
        exact min_eq_left hbk
    · have hbk : firstIdx (p ++ ((lbrack :: rest) ++ q)) lbrack = (p.length : Int) :=
        firstIdx_concat_first p rest q lbrack hp2
      have hbkne : ¬ firstIdx (p ++ ((lbrack :: rest) ++ q)) lbrack = -1 := by
        rw [hbk]
        omega
      rcases firstIdx_concat_ge p ((lbrack :: rest) ++ q) lbrace hp1 with hbr | hbr
      · rw [if_pos hbr]
        exact hbk
      · have hbrne : ¬ firstIdx (p ++ ((lbrack :: rest) ++ q)) lbrace = -1 := by omega
        rw [if_neg hbrne, if_neg hbkne, hbk]
        exact min_eq_right hbr

theorem endIndexOf_lt_length (s : List Char) : endIndexOf s < (s.length : Int) := by
  unfold endIndexOf
  exact max_lt (lastIdx_lt_length s rbrace) (lastIdx_lt_length s rbrack)

theorem endIndexOf_concat (p frag q : List Char) (e : Char)
    (he : e = rbrace ∨ e = rbrack)
    (hfrag : frag.getLast? = some e)
    (hq1 : rbrace ∉ q) (hq2 : rbrack ∉ q) :
    endIndexOf (p ++ frag ++ q) = (p.length : Int) + (frag.length : Int) - 1 := by
  have hfrag_ne : frag ≠ [] := by
    rintro rfl
    simp at hfrag
  have hgl : frag.getLast hfrag_ne = e := by
    rw [List.getLast?_eq_getLast frag hfrag_ne] at hfrag
    exact Option.some_injective _ hfrag
  have hd : frag.dropLast ++ [e] = frag := by
    have h := List.dropLast_append_getLast hfrag_ne
    rwa [hgl] at h
  have hlen : frag.dropLast.length = frag.length - 1 := List.length_dropLast frag
  have hfl : 1 ≤ frag.length := by
    have := List.length_pos.mpr hfrag_ne
    omega
  have key : ∀ c : Char, c ∉ q →
      lastIdx ((p ++ frag) ++ q) c = lastIdx (p ++ frag) c :=
    fun c hc => lastIdx_append_not_mem (p ++ frag) q c hc
  have keyE : lastIdx (p ++ frag) e = (p.length : Int) + (frag.length : Int) - 1 := by
    conv_lhs => rw [← hd, ← List.append_assoc]
    rw [lastIdx_concat_self]
    rw [List.length_append, hlen]
    push_cast [hfl]
    ring
  have keyOther : ∀ c : Char,
      lastIdx (p ++ frag) c ≤ (p.length : Int) + (frag.length : Int) - 1 := by
    intro c
    have h := lastIdx_lt_length (p ++ frag) c
    rw [List.length_append] at h
    push_cast at h
    omega
  unfold endIndexOf
  rcases he with rfl | rfl
  · rw [key rbrace hq1, key rbrack hq2, keyE]
    exact max_eq_left (keyOther rbrack)
  · rw [key rbrace hq1, key rbrack hq2, keyE]
    exact max_eq_right (keyOther rbrace)

theorem extractedOf_concat (p frag q : List Char) (o e : Char)
    (ho : o = lbrace ∨ o = lbrack) (he : e = rbrace ∨ e = rbrack)
    (hh : frag.head? = some o) (hl : frag.getLast? = some e)
    (hp1 : lbrace ∉ p) (hp2 : lbrack ∉ p)
    (hq1 : rbrace ∉ q) (hq2 : rbrack ∉ q) :
    extractedOf (p ++ frag ++ q) = frag := by
  have hfl : 1 ≤ frag.length := by
    rcases frag with _ | _
    · simp at hh
    · simp
  unfold extractedOf
  rw [startIndexOf_concat p frag q o ho hh hp1 hp2,
      endIndexOf_concat p frag q e he hl hq1 hq2]
  have harith : (p.length : Int) + (frag.length : Int) - 1 + 1 =
      ((p.length + frag.length : Nat) : Int) := by
    push_cast
    ring
  rw [harith]
  have hble : p.length + frag.length ≤ ((p ++ frag) ++ q).length := by
    simp [List.length_append]
  rw [jsSubstring_of_bounds _ _ _ (Nat.le_add_right _ _) hble]
  rw [show p.length + frag.length = (p ++ frag).length from (List.length_append p frag).symm]
  rw [List.take_left, List.drop_left]

theorem startIndexOf_nonneg (s : List Char) (hop : lbrace ∈ s ∨ lbrack ∈ s) :
    0 ≤ startIndexOf s := by
  unfold startIndexOf firstBraceOf firstBracketOf
  have g1 := firstIdx_ge s lbrace
  have g2 := firstIdx_ge s lbrack
  have h : ¬ (firstIdx s lbrace = -1 ∧ firstIdx s lbrack = -1) := by
    rw [firstIdx_eq_neg_iff, firstIdx_eq_neg_iff]
    tauto
  by_cases h1 : firstIdx s lbrace = -1
  · rw [if_pos h1]
    have h2 : ¬ firstIdx s lbrack = -1 := fun hh => h ⟨h1, hh⟩
    omega
  · rw [if_neg h1]
    by_cases h2 : firstIdx s lbrack = -1
    · rw [if_pos h2]
      omega
    · rw [if_neg h2]
      exact le_min (by omega) (by omega)

theorem startIndexOf_isOpener (s : List Char)
    (h1 : ¬ (firstBraceOf s = -1 ∧ firstBracketOf s = -1)) :
    0 ≤ startIndexOf s ∧
      (s[(startIndexOf s).toNat]? = some lbrace ∨
        s[(startIndexOf s).toNat]? = some lbrack) := by
  unfold firstBraceOf firstBracketOf at h1
  unfold startIndexOf firstBraceOf firstBracketOf
  have g1 := firstIdx_ge s lbrace
  have g2 := firstIdx_ge s lbrack
  by_cases hbr : firstIdx s lbrace = -1
  · have hbk : ¬ firstIdx s lbrack = -1 := fun hh => h1 ⟨hbr, hh⟩
    rw [if_pos hbr]
    have h0 : 0 ≤ firstIdx s lbrack := by omega
    exact ⟨h0, Or.inr (firstIdx_get s lbrack _ (Int.toNat_of_nonneg h0).symm)⟩
  · rw [if_neg hbr]
    have h0 : 0 ≤ firstIdx s lbrace := by omega
    by_cases hbk : firstIdx s lbrack = -1
    · rw [if_pos hbk]
      exact ⟨h0, Or.inl (firstIdx_get s lbrace _ (Int.toNat_of_nonneg h0).symm)⟩
    · rw [if_neg hbk]
      have h0' : 0 ≤ firstIdx s lbrack := by omega
      rcases min_choice (firstIdx s lbrace) (firstIdx s lbrack) with hm | hm
      · rw [hm]
        exact ⟨h0, Or.inl (firstIdx_get s lbrace _ (Int.toNat_of_nonneg h0).symm)⟩
      · rw [hm]
        exact ⟨h0', Or.inr (firstIdx_get s lbrack _ (Int.toNat_of_nonneg h0').symm)⟩

theorem endIndexOf_isCloser (s : List Char) (h2 : ¬ endIndexOf s = -1) :
    0 ≤ endIndexOf s ∧
      (s[(endIndexOf s).toNat]? = some rbrace ∨
        s[(endIndexOf s).toNat]? = some rbrack) := by
  unfold endIndexOf at h2 ⊢
  have g1 := lastIdx_ge s rbrace
  have g2 := lastIdx_ge s rbrack
  have hle1 := le_max_left (lastIdx s rbrace) (lastIdx s rbrack)
  have h0 : 0 ≤ max (lastIdx s rbrace) (lastIdx s rbrack) := by omega
  refine ⟨h0, ?_⟩
  rcases max_choice (lastIdx s rbrace) (lastIdx s rbrack) with hm | hm
  · rw [hm] at h0 ⊢
    exact Or.inl (lastIdx_get s rbrace _ (Int.toNat_of_nonneg h0).symm)
  · rw [hm] at h0 ⊢
    exact Or.inr (lastIdx_get s rbrack _ (Int.toNat_of_nonneg h0).symm)

/-! ### Concrete inputs from the specification -/

/-- The broken-syntax input of the specification, `{"a": }`. -/
def brokenInput : List Char := "\x7b\"a\": \x7d".toList

/-- An input whose only closing delimiter precedes its opening delimiter. -/
def swapInput : List Char := [rbrace, ' ', lbrace]

/-- The two-fragment input of the specification. -/
def twoFragmentsInput : List Char :=
  "noise \x7b\"a\":1\x7d more noise [1,2,3] tail".toList

/-- A JSON object wrapped in markdown code fences. -/
def fencedInput : List Char := "```json\n\x7b\"a\":1\x7d\n```".toList

/-- An input whose only opening delimiter is `[` and whose only closing
delimiter sits before it. -/
def strayCloserInput : List Char := [rbrack, lbrack]

/-- The spec's description of the extracted substring: the characters of
the input from the start index to the end index, inclusive of both. -/
def specSpanInclusive (s : List Char) : List Char :=
  (s.take ((endIndexOf s).toNat + 1)).drop (startIndexOf s).toNat

/-! ### The claims -/

/-- Claim C4: `extractAndDecode` fails with `ExtractionError` if and only
if either no opening delimiter occurs anywhere in the input or no closing
delimiter occurs anywhere in the input; in particular it does so for the
empty string. -/
theorem extractionError_iff_missing_delims :
    (∀ s : List Char, isExtractionError (robustJsonParse s) = true ↔
      ((lbrace ∉ s ∧ lbrack ∉ s) ∨ (rbrace ∉ s ∧ rbrack ∉ s))) ∧
    isExtractionError (robustJsonParse []) = true :=
  ⟨fun s => robustJsonParse_extraction_guard_iff s,
   (robustJsonParse_extraction_guard_iff []).mpr (Or.inl (by decide))⟩

/-- Claim C5: for every string that contains at least one `{` but no `}`
and no `]` anywhere, `extractAndDecode` fails with `ExtractionError`. -/
theorem extractionError_of_no_closer (s : List Char)
    (_h1 : lbrace ∈ s) (h2 : rbrace ∉ s) (h3 : rbrack ∉ s) :
    isExtractionError (robustJsonParse s) = true :=
  (robustJsonParse_extraction_guard_iff s).mpr (Or.inr ⟨h2, h3⟩)

/-- Witness for C5 at the one-character input `{`. -/
theorem extractionError_of_no_closer_witness :
    isExtractionError (robustJsonParse [lbrace]) = true :=
  extractionError_of_no_closer [lbrace] (by decide) (by decide) (by decide)

/-- Counterexample to claim C6 as stated: in `][` the only opening
delimiter is `[` and no closing delimiter occurs after it, yet the code
raises a `DecodeError`, not an `ExtractionError`, because the `]` before
the `[` satisfies the existence-anywhere check on closing delimiters. -/
theorem decodeError_at_closer_before_opener :
    (lbrace ∉ strayCloserInput ∧ lbrack ∈ strayCloserInput ∧
      (∀ c ∈ strayCloserInput.drop
          ((firstIdx strayCloserInput lbrack).toNat + 1), c ≠ rbrace ∧ c ≠ rbrack)) ∧
    isExtractionError (robustJsonParse strayCloserInput) = false ∧
    isDecodeError (robustJsonParse strayCloserInput) = true := by
  decide

/-- Claim C6 (amended): for every string whose only opening delimiter is
`[` and which contains no closing `]` or `}` anywhere, `extractAndDecode`
fails with `ExtractionError`; when a closing delimiter occurs only before
the opening `[`, the code instead fails with `DecodeError` (or decodes the
text between the delimiters). -/
theorem extractionError_of_only_bracket_no_closer (s : List Char)
    (_h1 : lbrace ∉ s) (_h2 : lbrack ∈ s) (h3 : rbrace ∉ s) (h4 : rbrack ∉ s) :
    isExtractionError (robustJsonParse s) = true :=
  (robustJsonParse_extraction_guard_iff s).mpr (Or.inr ⟨h3, h4⟩)

/-- Witness for the amended C6 at the one-character input `[`. -/
theorem extractionError_of_only_bracket_no_closer_witness :
    isExtractionError (robustJsonParse [lbrack]) = true :=
  extractionError_of_only_bracket_no_closer [lbrack]
    (by decide) (by decide) (by decide) (by decide)

/-- Claim C9: `extractAndDecode` is deterministic — two invocations on the
same input string yield identical results.  The embedding is a pure
function of the input, faithfully reflecting that the source reads no
mutable state and calls no nondeterministic API. -/
theorem robustJsonParse_deterministic (s t : List Char) (h : s = t) :
    robustJsonParse s = robustJsonParse t := by
  rw [h]

/-- Witness for C9 at the empty input. -/
theorem robustJsonParse_deterministic_witness :
    robustJsonParse [] = robustJsonParse [] :=
  robustJsonParse_deterministic [] [] rfl

/-- Claim C1: for every input that is a well-formed JSON object or array
(a fragment opening with `{` or `[`, closing with `}` or `]`, accepted by
the JSON parser) surrounded by prose free of the four delimiter
characters, `extractAndDecode` succeeds and returns exactly the value of
parsing the fragment directly. -/
theorem robustJsonParse_recovers_embedded_json (p frag q : List Char) (v : Json)
    (hp : ∀ c ∈ p, isNonDelim c) (hq : ∀ c ∈ q, isNonDelim c)
    (hopen : frag.head? = some lbrace ∨ frag.head? = some lbrack)
    (hclose : frag.getLast? = some rbrace ∨ frag.getLast? = some rbrack)
    (hparse : jsonParse frag = some v) :
    robustJsonParse (p ++ frag ++ q) = .ok v := by
  have hp1 : lbrace ∉ p := fun hm => ((hp _ hm).1) rfl
  have hp2 : lbrack ∉ p := fun hm => ((hp _ hm).2.1) rfl
  have hq1 : rbrace ∉ q := fun hm => ((hq _ hm).2.2.1) rfl
  have hq2 : rbrack ∉ q := fun hm => ((hq _ hm).2.2.2) rfl
  obtain ⟨o, ho, hh⟩ : ∃ o, (o = lbrace ∨ o = lbrack) ∧ frag.head? = some o := by
    rcases hopen with h | h
    · exact ⟨lbrace, Or.inl rfl, h⟩
    · exact ⟨lbrack, Or.inr rfl, h⟩
  obtain ⟨e, he, hl⟩ : ∃ e, (e = rbrace ∨ e = rbrack) ∧ frag.getLast? = some e := by
    rcases hclose with h | h
    · exact ⟨rbrace, Or.inl rfl, h⟩
    · exact ⟨rbrack, Or.inr rfl, h⟩
  have hof : o ∈ frag := by
    rcases frag with _ | ⟨x, t⟩
    · simp at hh
    · have hx : x = o := by simpa using hh
      rw [← hx]
      exact List.mem_cons_self x t
  have hef : e ∈ frag := by
    have hne : frag ≠ [] := by
      rintro rfl
      simp at hl
    have hgl : frag.getLast hne = e := by
      rw [List.getLast?_eq_getLast frag hne] at hl
      exact Option.some_injective _ hl
    rw [← hgl]
    exact List.getLast_mem hne
  have hos : o ∈ p ++ frag ++ q := by simp [hof]
  have hes : e ∈ p ++ frag ++ q := by simp [hef]
  have hop : lbrace ∈ p ++ frag ++ q ∨ lbrack ∈ p ++ frag ++ q := by
    rcases ho with rfl | rfl
    · exact Or.inl hos
    · exact Or.inr hos
  have hcl : rbrace ∈ p ++ frag ++ q ∨ rbrack ∈ p ++ frag ++ q := by
    rcases he with rfl | rfl
    · exact Or.inl hes
    · exact Or.inr hes
  rw [robustJsonParse_decode_branch _ hop hcl,
      extractedOf_concat p frag q o e ho he hh hl hp1 hp2 hq1 hq2, hparse]

/-- Witness for C1: the object `{"a":1}` inside prose is recovered. -/
theorem robustJsonParse_recovers_embedded_json_witness :
    robustJsonParse ("noise ".toList ++ "\x7b\"a\":1\x7d".toList ++ " tail.".toList) =
      .ok (Json.obj [("a".toList, Json.num "1".toList)]) :=
  robustJsonParse_recovers_embedded_json
    "noise ".toList "\x7b\"a\":1\x7d".toList " tail.".toList
    (Json.obj [("a".toList, Json.num "1".toList)])
    (by decide) (by decide) (by decide) (by decide) rfl

/-- Counterexample to claim C2 as stated: the input `} {` has an opening
and a closing delimiter, but the substring handed to the parser is not the
span from the start index to the end index inclusive (the start index 2
exceeds the end index 0, and JavaScript `substring` swaps its clamped
arguments, yielding the text strictly between the two delimiters). -/
theorem extracted_ne_span_at_swapped_delims :
    ((lbrace ∈ swapInput ∨ lbrack ∈ swapInput) ∧
      (rbrace ∈ swapInput ∨ rbrack ∈ swapInput)) ∧
    extractedOf swapInput ≠ specSpanInclusive swapInput := by
  decide

/-- Claim C2 (amended): for every input with at least one opening and one
closing delimiter, whenever the computed start index is at most the
computed end index, the substring handed to the parser is exactly the
characters from the start index to the end index inclusive. -/
theorem extracted_eq_span_of_ordered (s : List Char)
    (hop : lbrace ∈ s ∨ lbrack ∈ s) (_hcl : rbrace ∈ s ∨ rbrack ∈ s)
    (hord : startIndexOf s ≤ endIndexOf s) :
    extractedOf s = specSpanInclusive s := by
  have ha0 : 0 ≤ startIndexOf s := startIndexOf_nonneg s hop
  have hb0 : 0 ≤ endIndexOf s := le_trans ha0 hord
  have hblt : endIndexOf s < (s.length : Int) := endIndexOf_lt_length s
  unfold extractedOf specSpanInclusive
  set na := (startIndexOf s).toNat with hna
  set nb := (endIndexOf s).toNat with hnb
  have e1 : startIndexOf s = (na : Int) := by
    rw [hna]
    exact (Int.toNat_of_nonneg ha0).symm
  have e2 : endIndexOf s + 1 = ((nb + 1 : Nat) : Int) := by
    rw [hnb]
    push_cast
    rw [Int.toNat_of_nonneg hb0]
  rw [e1, e2]
  exact jsSubstring_of_bounds s na (nb + 1) (by omega) (by omega)

/-- Witness for the amended C2 at the input `{}`. -/
theorem extracted_eq_span_of_ordered_witness :
    extractedOf [lbrace, rbrace] = specSpanInclusive [lbrace, rbrace] :=
  extracted_eq_span_of_ordered [lbrace, rbrace]
    (by decide) (by decide) (by decide)

/-- Counterexample to claim C3 as stated: for the input `{"a": }` decoding
fails, but the raised failure carries only the fixed message of the source
(`The AI returned a response that could not be parsed as JSON.`); neither
the raw input nor the extracted substring (here equal to the raw input)
occurs in that payload — they are written to the console instead. -/
theorem decodeError_payload_not_preserved :
    robustJsonParse brokenInput = .error (.decodeError decodeFailMsg) ∧
    extractedOf brokenInput = brokenInput ∧
    ¬ List.IsInfix (extractedOf brokenInput) decodeFailMsg ∧
    ¬ List.IsInfix brokenInput decodeFailMsg := by
  refine ⟨rfl, rfl, by decide, by decide⟩

/-- Claim C3 (amended): whenever decoding fails, the failure raised to the
caller is a `DecodeError` carrying the fixed message `The AI returned a
response that could not be parsed as JSON.`; the raw input and the
extracted substring are logged to the console, not preserved on the
error. -/
theorem decodeError_msg_fixed (s m : List Char)
    (h : robustJsonParse s = .error (.decodeError m)) : m = decodeFailMsg := by
  unfold robustJsonParse at h
  by_cases h1 : (firstBraceOf s = -1 ∧ firstBracketOf s = -1)
  · rw [if_pos h1] at h
    simp at h
  · rw [if_neg h1] at h
    by_cases h2 : endIndexOf s = -1
    · rw [if_pos h2] at h
      simp at h
    · rw [if_neg h2] at h
      rcases hjp : jsonParse (extractedOf s) with _ | v
      · rw [hjp] at h
        simp at h
        exact h.symm
      · rw [hjp] at h
        simp at h

/-- Witness for the amended C3 at the input `{"a": }`. -/
theorem decodeError_msg_fixed_witness :
    robustJsonParse brokenInput = .error (.decodeError decodeFailMsg) ∧
      decodeFailMsg = decodeFailMsg :=
  ⟨rfl, decodeError_msg_fixed brokenInput decodeFailMsg rfl⟩

/-- Claim C7: on `noise {"a":1} more noise [1,2,3] tail` the extractor
produces the greedy span from the first `{` to the last `]`, and decoding
that span fails with `DecodeError`. -/
theorem greedy_span_two_fragments :
    extractedOf twoFragmentsInput = "\x7b\"a\":1\x7d more noise [1,2,3]".toList ∧
    robustJsonParse twoFragmentsInput = .error (.decodeError decodeFailMsg) :=
  ⟨rfl, rfl⟩

/-- Claim C8: a JSON object wrapped in markdown code fences is recovered:
the input <code>```json\n&#123;"a":1&#125;\n```</code> decodes to the
object with the single field `a` holding `1`. -/
theorem fenced_object_parses :
    robustJsonParse fencedInput =
      .ok (Json.obj [("a".toList, Json.num "1".toList)]) :=
  rfl

/-- Claim C10: whenever both delimiter classes are present and the start
index is at most the end index, the substring passed to the parser is
non-empty, begins with `{` or `[`, and ends with `}` or `]`. -/
theorem extracted_delimited_of_ordered (s : List Char)
    (h1 : ¬ (firstBraceOf s = -1 ∧ firstBracketOf s = -1))
    (h2 : ¬ endIndexOf s = -1)
    (h3 : startIndexOf s ≤ endIndexOf s) :
    extractedOf s ≠ [] ∧
      ((extractedOf s).head? = some lbrace ∨ (extractedOf s).head? = some lbrack) ∧
      ((extractedOf s).getLast? = some rbrace ∨
        (extractedOf s).getLast? = some rbrack) := by
  obtain ⟨ha0, hopen⟩ := startIndexOf_isOpener s h1
  obtain ⟨hb0, hclose⟩ := endIndexOf_isCloser s h2
  have hblt := endIndexOf_lt_length s
  set na := (startIndexOf s).toNat with hna
  set nb := (endIndexOf s).toNat with hnb
  have hnale : na ≤ nb := by omega
  have hnblt : nb < s.length := by omega
  have hext : extractedOf s = (s.take (nb + 1)).drop na := by
    unfold extractedOf
    have e1 : startIndexOf s = (na : Int) := by
      rw [hna]
      exact (Int.toNat_of_nonneg ha0).symm
    have e2 : endIndexOf s + 1 = ((nb + 1 : Nat) : Int) := by
      rw [hnb]
      push_cast
      rw [Int.toNat_of_nonneg hb0]
    rw [e1, e2]
    exact jsSubstring_of_bounds s na (nb + 1) (by omega) (by omega)
  rw [hext]
  have hlen : ((s.take (nb + 1)).drop na).length = nb + 1 - na := by
    rw [List.length_drop, List.length_take, min_eq_left (by omega : nb + 1 ≤ s.length)]
  have hpos : 0 < ((s.take (nb + 1)).drop na).length := by
    rw [hlen]
    omega
  refine ⟨List.length_pos.mp hpos, ?_, ?_⟩
  · rw [List.head?_drop, List.getElem?_take, if_pos (by omega : na < nb + 1)]
    exact hopen
  · rw [List.getLast?_eq_getElem?, hlen,
      show nb + 1 - na - 1 = nb - na from by omega,
      List.getElem?_drop, List.getElem?_take,
      if_pos (by omega : na + (nb - na) < nb + 1),
      show na + (nb - na) = nb from by omega]
    exact hclose

/-- Witness for C10 at the input `{}`. -/
theorem extracted_delimited_of_ordered_witness :
    extractedOf [lbrace, rbrace] ≠ [] ∧
      ((extractedOf [lbrace, rbrace]).head? = some lbrace ∨
        (extractedOf [lbrace, rbrace]).head? = some lbrack) ∧
      ((extractedOf [lbrace, rbrace]).getLast? = some rbrace ∨
        (extractedOf [lbrace, rbrace]).getLast? = some rbrack) :=
  extracted_delimited_of_ordered [lbrace, rbrace]
    (by decide) (by decide) (by decide)

end RobustJson
